import Mathlib

/-!
Verification of the core of `sketch` (src/main.go), a stochastic hill-climbing
image approximator.

Modelling decisions:
* A pixel is a 4-channel color (`RGBA`); a canvas is a total function from
  integer coordinates to pixels.  The Go routines `line`, `bcopy` and `bdiff`
  pass raw, unclamped coordinates to `SetRGBA`/`RGBAAt`, so the embedding
  addresses arbitrary integer coordinates.
* The three Go functions `line` (src/main.go:154), `bcopy` (src/main.go:120)
  and `bdiff` (src/main.go:53) contain textually identical Bresenham loop
  headers and step code.  `bresSetup` embeds the shared header once and
  `bresLoop` records the visited-pixel sequence of the shared loop; each of
  the three functions is embedded as its own loop (`lineLoop`, `bcopyLoop`,
  `bdiffLoop`) mirroring the Go control flow, with fuel standing for the
  unbounded `for` loop (`none` = fuel exhausted, proved unreachable below).
* `calcDiff` (src/main.go:88) promotes 8-bit channel values to `float64`
  before subtracting, squares, and sums four channel terms; every such value
  is an integer of magnitude at most `4 * 255^2` per pixel, on which `float64`
  arithmetic is exact, so the embedding uses exact integer arithmetic.
-/

namespace Sketch

structure RGBA where
  r : ℕ
  g : ℕ
  b : ℕ
  a : ℕ
deriving DecidableEq

def Canvas : Type := ℤ × ℤ → RGBA

/-- A single `SetRGBA(x, y, c)` write on a canvas. -/
def setPixel (img : Canvas) (x y : ℤ) (c : RGBA) : Canvas :=
  fun p => if p = (x, y) then c else img p

/-- calcDiff (src/main.go:88-118), live branch: the channels of the two pixels
at `(x, y)` are promoted, subtracted pairwise, squared and summed over the four
channels R, G, B, A. -/
def calcDiff (img1 img2 : Canvas) (x y : ℤ) : ℤ :=
  let pa := img1 (x, y)
  let pb := img2 (x, y)
  ((pb.r : ℤ) - (pa.r : ℤ)) * ((pb.r : ℤ) - (pa.r : ℤ))
    + ((pb.g : ℤ) - (pa.g : ℤ)) * ((pb.g : ℤ) - (pa.g : ℤ))
    + ((pb.b : ℤ) - (pa.b : ℤ)) * ((pb.b : ℤ) - (pa.b : ℤ))
    + ((pb.a : ℤ) - (pa.a : ℤ)) * ((pb.a : ℤ) - (pa.a : ℤ))

/-- The Bresenham header shared verbatim by `line`, `bcopy` and `bdiff`
(e.g. src/main.go:155-169): returns `(dx, dy, sx, sy)`. -/
def bresSetup (x0 y0 x1 y1 : ℤ) : ℤ × ℤ × ℤ × ℤ :=
  let dx0 := x1 - x0
  let dx := if dx0 < 0 then -dx0 else dx0
  let dy0 := y1 - y0
  let dy := if dy0 < 0 then -dy0 else dy0
  let sx : ℤ := if x0 < x1 then 1 else -1
  let sy : ℤ := if y0 < y1 then 1 else -1
  (dx, dy, sx, sy)

/-- The Bresenham loop shared verbatim by `line`, `bcopy` and `bdiff`
(e.g. src/main.go:171-185), recorded as the sequence of visited pixels.
Go's `e2 > -dy` is written `-dy < e2`.  `none` models fuel exhaustion. -/
def bresLoop (x1 y1 dx dy sx sy : ℤ) : ℕ → ℤ → ℤ → ℤ → Option (List (ℤ × ℤ))
  | 0, _, _, _ => none
  | fuel+1, x0, y0, err =>
    if x0 = x1 ∧ y0 = y1 then
      some [(x0, y0)]
    else
      let e2 := 2 * err
      let err1 := if -dy < e2 then err - dy else err
      let x0n := if -dy < e2 then x0 + sx else x0
      let err2 := if e2 < dx then err1 + dx else err1
      let y0n := if e2 < dx then y0 + sy else y0
      Option.map (fun l => (x0, y0) :: l) (bresLoop x1 y1 dx dy sx sy fuel x0n y0n err2)

/-- The pixels visited by the shared Bresenham traversal from `(x0, y0)` to
`(x1, y1)`, with fuel `dx + dy + 1` (shown sufficient in `bresLoop_spec`). -/
def lineVisits (x0 y0 x1 y1 : ℤ) : Option (List (ℤ × ℤ)) :=
  bresLoop x1 y1 (bresSetup x0 y0 x1 y1).1 (bresSetup x0 y0 x1 y1).2.1
    (bresSetup x0 y0 x1 y1).2.2.1 (bresSetup x0 y0 x1 y1).2.2.2
    ((bresSetup x0 y0 x1 y1).1 + (bresSetup x0 y0 x1 y1).2.1 + 1).toNat
    x0 y0 ((bresSetup x0 y0 x1 y1).1 - (bresSetup x0 y0 x1 y1).2.1)

def visitList (x0 y0 x1 y1 : ℤ) : List (ℤ × ℤ) :=
  (lineVisits x0 y0 x1 y1).getD []

/-- The loop of `line` (src/main.go:171-185): `img.SetRGBA(x0, y0, clr)` at
every visited pixel. -/
def lineLoop (clr : RGBA) (x1 y1 dx dy sx sy : ℤ) :
    ℕ → Canvas → ℤ → ℤ → ℤ → Option Canvas
  | 0, _, _, _, _ => none
  | fuel+1, img, x0, y0, err =>
    let img1 := setPixel img x0 y0 clr
    if x0 = x1 ∧ y0 = y1 then
      some img1
    else
      let e2 := 2 * err
      let err1 := if -dy < e2 then err - dy else err
      let x0n := if -dy < e2 then x0 + sx else x0
      let err2 := if e2 < dx then err1 + dx else err1
      let y0n := if e2 < dx then y0 + sy else y0
      lineLoop clr x1 y1 dx dy sx sy fuel img1 x0n y0n err2

def lineO (img : Canvas) (x0 y0 x1 y1 : ℤ) (clr : RGBA) : Option Canvas :=
  lineLoop clr x1 y1 (bresSetup x0 y0 x1 y1).1 (bresSetup x0 y0 x1 y1).2.1
    (bresSetup x0 y0 x1 y1).2.2.1 (bresSetup x0 y0 x1 y1).2.2.2
    ((bresSetup x0 y0 x1 y1).1 + (bresSetup x0 y0 x1 y1).2.1 + 1).toNat
    img x0 y0 ((bresSetup x0 y0 x1 y1).1 - (bresSetup x0 y0 x1 y1).2.1)

/-- line (src/main.go:154-186): draw `clr` along the Bresenham traversal. -/
def line (img : Canvas) (x0 y0 x1 y1 : ℤ) (clr : RGBA) : Canvas :=
  (lineO img x0 y0 x1 y1 clr).getD img

/-- The loop of `bcopy` (src/main.go:137-151):
`dst.SetRGBA(x0, y0, src.RGBAAt(x0, y0))` at every visited pixel. -/
def bcopyLoop (src : Canvas) (x1 y1 dx dy sx sy : ℤ) :
    ℕ → Canvas → ℤ → ℤ → ℤ → Option Canvas
  | 0, _, _, _, _ => none
  | fuel+1, dst, x0, y0, err =>
    let dst1 := setPixel dst x0 y0 (src (x0, y0))
    if x0 = x1 ∧ y0 = y1 then
      some dst1
    else
      let e2 := 2 * err
      let err1 := if -dy < e2 then err - dy else err
      let x0n := if -dy < e2 then x0 + sx else x0
      let err2 := if e2 < dx then err1 + dx else err1
      let y0n := if e2 < dx then y0 + sy else y0
      bcopyLoop src x1 y1 dx dy sx sy fuel dst1 x0n y0n err2

def bcopyO (dst src : Canvas) (x0 y0 x1 y1 : ℤ) : Option Canvas :=
  bcopyLoop src x1 y1 (bresSetup x0 y0 x1 y1).1 (bresSetup x0 y0 x1 y1).2.1
    (bresSetup x0 y0 x1 y1).2.2.1 (bresSetup x0 y0 x1 y1).2.2.2
    ((bresSetup x0 y0 x1 y1).1 + (bresSetup x0 y0 x1 y1).2.1 + 1).toNat
    dst x0 y0 ((bresSetup x0 y0 x1 y1).1 - (bresSetup x0 y0 x1 y1).2.1)

/-- bcopy (src/main.go:120-152): copy the pixels of the traversal from `src`
into `dst`. -/
def bcopy (dst src : Canvas) (x0 y0 x1 y1 : ℤ) : Canvas :=
  (bcopyO dst src x0 y0 x1 y1).getD dst

/-- The loop of `bdiff` (src/main.go:70-85): `dif += calcDiff(a, b, x0, y0)`
at every visited pixel, before the termination test, as in the Go code. -/
def bdiffLoop (ca cb : Canvas) (x1 y1 dx dy sx sy : ℤ) :
    ℕ → ℤ → ℤ → ℤ → ℤ → Option ℤ
  | 0, _, _, _, _ => none
  | fuel+1, dif, x0, y0, err =>
    let dif1 := dif + calcDiff ca cb x0 y0
    if x0 = x1 ∧ y0 = y1 then
      some dif1
    else
      let e2 := 2 * err
      let err1 := if -dy < e2 then err - dy else err
      let x0n := if -dy < e2 then x0 + sx else x0
      let err2 := if e2 < dx then err1 + dx else err1
      let y0n := if e2 < dx then y0 + sy else y0
      bdiffLoop ca cb x1 y1 dx dy sx sy fuel dif1 x0n y0n err2

def bdiffO (ca cb : Canvas) (x0 y0 x1 y1 : ℤ) : Option ℤ :=
  bdiffLoop ca cb x1 y1 (bresSetup x0 y0 x1 y1).1 (bresSetup x0 y0 x1 y1).2.1
    (bresSetup x0 y0 x1 y1).2.2.1 (bresSetup x0 y0 x1 y1).2.2.2
    ((bresSetup x0 y0 x1 y1).1 + (bresSetup x0 y0 x1 y1).2.1 + 1).toNat
    0 x0 y0 ((bresSetup x0 y0 x1 y1).1 - (bresSetup x0 y0 x1 y1).2.1)

/-- bdiff (src/main.go:53-86): accumulated `calcDiff` of the two canvases over
the pixels of the traversal. -/
def bdiff (ca cb : Canvas) (x0 y0 x1 y1 : ℤ) : ℤ :=
  (bdiffO ca cb x0 y0 x1 y1).getD 0

/-- The progress measure along the traversal: steps taken from the start, in
units of `sx` horizontally and `sy` vertically. -/
def meas (x0 y0 sx sy : ℤ) (p : ℤ × ℤ) : ℤ :=
  (p.1 - x0) * sx + (p.2 - y0) * sy

/-- 8-adjacency of two distinct pixels (Chebyshev distance at most 1). -/
def adj8 (p q : ℤ × ℤ) : Prop :=
  p ≠ q ∧ (q.1 - p.1).natAbs ≤ 1 ∧ (q.2 - p.2).natAbs ≤ 1

/-- The palette scan of `sketch` (src/main.go:248-262): one raster-order pass;
in unique mode (`-p`) a color is appended only if it is not in the seen set
`uniq`, otherwise every pixel's color is appended unconditionally. -/
def paletteScan (palUniq : Bool) : List RGBA → List RGBA → List RGBA → List RGBA
  | [], palette, _ => palette
  | clr :: rest, palette, uniq =>
    if palUniq then
      if clr ∈ uniq then
        paletteScan palUniq rest palette uniq
      else
        paletteScan palUniq rest (palette ++ [clr]) (clr :: uniq)
    else
      paletteScan palUniq rest (palette ++ [clr]) uniq

/-- The source pixels in raster order (src/main.go:250-251: `y` outer loop,
`x` inner loop over a `w × h` image). -/
def rasterList (w h : ℕ) (img : Canvas) : List RGBA :=
  (List.range h).flatMap (fun y => (List.range w).map (fun x => img (Int.ofNat x, Int.ofNat y)))

def buildPalette (palUniq : Bool) (w h : ℕ) (img : Canvas) : List RGBA :=
  paletteScan palUniq (rasterList w h img) [] []

/-- One iteration of the convergence engine (src/main.go:284-311) for a chosen
line `(x1,y1)-(x2,y2)` and color: draw on `img1`, diff both canvases against
the source `img` over the line, and compare with strict `<`; on convergence
copy the line from `img1` into `img2` and increment `statc`, otherwise copy it
from `img2` back into `img1`.  The parallel path (src/main.go:287-298) computes
the same two diffs.  Returns the new `(img1, img2, statc)`. -/
def iterStep (img img1 img2 : Canvas) (statc : ℕ) (x1 y1 x2 y2 : ℤ) (clr : RGBA) :
    Canvas × Canvas × ℕ :=
  if bdiff img (line img1 x1 y1 x2 y2 clr) x1 y1 x2 y2 < bdiff img img2 x1 y1 x2 y2 then
    (line img1 x1 y1 x2 y2 clr,
     bcopy img2 (line img1 x1 y1 x2 y2 clr) x1 y1 x2 y2,
     statc + 1)
  else
    (bcopy (line img1 x1 y1 x2 y2 clr) img2 x1 y1 x2 y2,
     img2,
     statc)

/-- The second endpoint coordinate of a line proposal (src/main.go:280-281):
`-lineLen/2 + anchor + rand.Intn(lineLen)`, with Go's truncated integer
division, so `Int.tdiv` and not Euclidean division. -/
def samplePoint2 (len : ℕ) (anchor r : ℤ) : ℤ :=
  Int.tdiv (-(len : ℤ)) 2 + anchor + r

def inBounds (w h : ℕ) (p : ℤ × ℤ) : Prop :=
  0 ≤ p.1 ∧ p.1 < (w : ℤ) ∧ 0 ≤ p.2 ∧ p.2 < (h : ℤ)

instance (w h : ℕ) (p : ℤ × ℤ) : Decidable (inBounds w h p) := by
  unfold inBounds; infer_instance

/-- The state relevant to a snapshot save: the live canvas `img` (the `img2`
of the main loop, passed by reference) and the global scratch buffer
`saveScratch`. -/
structure SaveState where
  img : Canvas
  scratch : Canvas

/-- The synchronous part of save (src/main.go:191-196):
`copy(saveScratch.Pix, img.Pix)` freezes the canvas at call time. -/
def saveCall (s : SaveState) : SaveState :=
  { s with scratch := s.img }

/-- A main-loop write to the live canvas (a `SetRGBA` from `line` or `bcopy`)
performed after `save` has returned, while the encode goroutine may still be
running. -/
def mainWrite (s : SaveState) (x y : ℤ) (c : RGBA) : SaveState :=
  { s with img := setPixel s.img x y c }

/-- What the asynchronous goroutine of save hands to the PNG encoder
(src/main.go:206): `png.Encode(outf, img)` reads the live canvas `img` at
encode time, not the frozen `saveScratch` copy. -/
def encodeOutput (s : SaveState) : Canvas :=
  s.img

inductive RunOutcome where
  | processExit
  | loopContinues
deriving DecidableEq

inductive LogEntry (ε ν : Type) where
  | fatalErr (e : ε)
  | wroteFile (n : ν)

/-- The error handling of save's goroutine (src/main.go:199-209): if
`os.Create` fails, `log.Fatalln(err)` passes the error to the logger and then
terminates the whole process via `os.Exit(1)`; on success the frame is encoded
and the completion notice `"wrote <name>"` is logged, and the process
continues. -/
def saveGoroutine {ε ν : Type} (createResult : Except ε Unit) (name : ν) :
    List (LogEntry ε ν) × RunOutcome :=
  match createResult with
  | Except.error e => ([LogEntry.fatalErr e], RunOutcome.processExit)
  | Except.ok _ => ([LogEntry.wroteFile name], RunOutcome.loopContinues)

/-! Helper lemmas about the shared Bresenham traversal. -/

lemma meas_at (X0 Y0 sx sy u v : ℤ) (hsx2 : sx * sx = 1) (hsy2 : sy * sy = 1) :
    meas X0 Y0 sx sy (X0 + u * sx, Y0 + v * sy) = u + v := by
  show (X0 + u * sx - X0) * sx + (Y0 + v * sy - Y0) * sy = u + v
  linear_combination u * hsx2 + v * hsy2

lemma bresSetup_spec (x0 y0 x1 y1 : ℤ) :
    0 ≤ (bresSetup x0 y0 x1 y1).1 ∧ 0 ≤ (bresSetup x0 y0 x1 y1).2.1 ∧
    ((bresSetup x0 y0 x1 y1).2.2.1 = 1 ∨ (bresSetup x0 y0 x1 y1).2.2.1 = -1) ∧
    ((bresSetup x0 y0 x1 y1).2.2.2 = 1 ∨ (bresSetup x0 y0 x1 y1).2.2.2 = -1) ∧
    x1 = x0 + (bresSetup x0 y0 x1 y1).1 * (bresSetup x0 y0 x1 y1).2.2.1 ∧
    y1 = y0 + (bresSetup x0 y0 x1 y1).2.1 * (bresSetup x0 y0 x1 y1).2.2.2 := by
  refine ⟨?_, ?_, ?_, ?_, ?_, ?_⟩ <;>
    · simp only [bresSetup]
      split_ifs <;> omega

/-- One step of the shared Bresenham loop below the termination test, with the
two conditional updates written out. -/
lemma bresLoop_step (X1 Y1 a b sx sy x0 y0 err : ℤ) (n : ℕ)
    (hterm : ¬(x0 = X1 ∧ y0 = Y1)) :
    bresLoop X1 Y1 a b sx sy (n + 1) x0 y0 err =
      Option.map (fun l => (x0, y0) :: l)
        (bresLoop X1 Y1 a b sx sy n
          (if -b < 2 * err then x0 + sx else x0)
          (if 2 * err < a then y0 + sy else y0)
          ((if -b < 2 * err then err - b else err) + (if 2 * err < a then a else 0))) := by
  simp only [bresLoop]
  rw [if_neg hterm]
  by_cases hA : -b < 2 * err <;> by_cases hB : 2 * err < a <;> simp [hA, hB]

/-- The inductive invariant of the shared Bresenham loop: from a state that has
taken `u` horizontal and `v` vertical steps (with the loop's error term), the
loop terminates within the remaining fuel and visits a strictly advancing,
8-connected pixel sequence ending at the second endpoint. -/
lemma bresLoop_spec (X0 Y0 X1 Y1 a b sx sy : ℤ)
    (ha : 0 ≤ a) (hb : 0 ≤ b)
    (hsx : sx = 1 ∨ sx = -1) (hsy : sy = 1 ∨ sy = -1)
    (hX1 : X1 = X0 + a * sx) (hY1 : Y1 = Y0 + b * sy) :
    ∀ (fuel : ℕ) (u v : ℤ), 0 ≤ u → u ≤ a → 0 ≤ v → v ≤ b →
      (a - u + (b - v)).toNat < fuel →
      ∃ l, bresLoop X1 Y1 a b sx sy fuel (X0 + u * sx) (Y0 + v * sy)
              (a * (v + 1) - b * (u + 1)) = some l ∧
        l.head? = some (X0 + u * sx, Y0 + v * sy) ∧
        l.getLast? = some (X1, Y1) ∧
        (∀ p ∈ l, u + v ≤ meas X0 Y0 sx sy p) ∧
        l.Pairwise (fun p q => meas X0 Y0 sx sy p < meas X0 Y0 sx sy q) ∧
        l.Chain' adj8 := by
  have hsx2 : sx * sx = 1 := by rcases hsx with h | h <;> rw [h] <;> ring
  have hsy2 : sy * sy = 1 := by rcases hsy with h | h <;> rw [h] <;> ring
  intro fuel
  induction fuel with
  | zero => intro u v _ _ _ _ hfuel; exact absurd hfuel (by omega)
  | succ n ih =>
    intro u v hu hua hv hvb hfuel
    have hxiff : (X0 + u * sx = X1) ↔ u = a := by
      subst hX1; rcases hsx with h | h <;> subst h <;> omega
    have hyiff : (Y0 + v * sy = Y1) ↔ v = b := by
      subst hY1; rcases hsy with h | h <;> subst h <;> omega
    by_cases hterm : X0 + u * sx = X1 ∧ Y0 + v * sy = Y1
    · -- terminal state: u = a and v = b, a single visit remains
      refine ⟨[(X0 + u * sx, Y0 + v * sy)], ?_, rfl, ?_, ?_, ?_, ?_⟩
      · simp only [bresLoop]
        rw [if_pos hterm]
      · simp [hterm.1, hterm.2]
      · intro p hp
        simp only [List.mem_singleton] at hp
        subst hp
        rw [meas_at X0 Y0 sx sy u v hsx2 hsy2]
      · exact List.pairwise_singleton _ _
      · exact List.chain'_singleton _
    · have hne : ¬(u = a ∧ v = b) := fun h => hterm ⟨hxiff.mpr h.1, hyiff.mpr h.2⟩
      have hprog : ¬(-b < 2 * (a * (v + 1) - b * (u + 1))) →
          ¬(2 * (a * (v + 1) - b * (u + 1)) < a) → False := by
        intro h1 h2
        have h1' := not_lt.mp h1
        have h2' := not_lt.mp h2
        have hab : a ≤ -b := le_trans h2' h1'
        exact hne ⟨by omega, by omega⟩
      -- once the horizontal steps are exhausted, the horizontal condition fails
      have hstopx : u = a → v < b → ¬(-b < 2 * (a * (v + 1) - b * (u + 1))) := by
        intro hu_eq hvb' hA
        subst hu_eq
        nlinarith [mul_le_mul_of_nonneg_left (by omega : v + 1 ≤ b)
          (by omega : (0 : ℤ) ≤ 2 * u)]
      -- once the vertical steps are exhausted, the vertical condition fails
      have hstopy : v = b → u < a → ¬(2 * (a * (v + 1) - b * (u + 1)) < a) := by
        intro hv_eq hua' hB
        subst hv_eq
        nlinarith [mul_le_mul_of_nonneg_left (by omega : u + 1 ≤ a)
          (by omega : (0 : ℤ) ≤ 2 * v)]
      rcases Decidable.em (-b < 2 * (a * (v + 1) - b * (u + 1))) with hA | hA <;>
        rcases Decidable.em (2 * (a * (v + 1) - b * (u + 1)) < a) with hB | hB
      · -- diagonal step: u and v both advance
        have hua' : u < a := by
          rcases lt_or_eq_of_le hua with h | h
          · exact h
          · exact absurd hA (hstopx h (lt_of_le_of_ne hvb (fun hvb2 => hne ⟨h, hvb2⟩)))
        have hvb' : v < b := by
          rcases lt_or_eq_of_le hvb with h | h
          · exact h
          · exact absurd hB (hstopy h hua')
        obtain ⟨l', hbl', hhead', hlast', hlow', hpair', hchain'⟩ :=
          ih (u + 1) (v + 1) (by omega) (by omega) (by omega) (by omega) (by omega)
        refine ⟨(X0 + u * sx, Y0 + v * sy) :: l', ?_, rfl, ?_, ?_, ?_, ?_⟩
        · rw [bresLoop_step X1 Y1 a b sx sy _ _ _ n hterm]
          simp only [if_pos hA, if_pos hB]
          rw [show X0 + u * sx + sx = X0 + (u + 1) * sx by ring,
            show Y0 + v * sy + sy = Y0 + (v + 1) * sy by ring,
            show a * (v + 1) - b * (u + 1) - b + a
                = a * ((v + 1) + 1) - b * ((u + 1) + 1) by ring,
            hbl']
          rfl
        · obtain ⟨q, t, rfl⟩ : ∃ q t, l' = q :: t := by
            cases l' with
            | nil => simp at hhead'
            | cons q t => exact ⟨q, t, rfl⟩
          simpa using hlast'
        · intro p hp
          rcases List.mem_cons.mp hp with h | h
          · subst h
            rw [meas_at X0 Y0 sx sy u v hsx2 hsy2]
          · have := hlow' p h
            linarith
        · refine List.pairwise_cons.mpr ⟨?_, hpair'⟩
          intro p hp
          have h1 := hlow' p hp
          rw [meas_at X0 Y0 sx sy u v hsx2 hsy2]
          linarith
        · refine List.chain'_cons'.mpr ⟨?_, hchain'⟩
          intro q hq
          rw [hhead', Option.mem_some_iff] at hq
          subst hq
          refine ⟨?_, ?_, ?_⟩
          · intro hcontra
            have h1 := meas_at X0 Y0 sx sy u v hsx2 hsy2
            have h2 := meas_at X0 Y0 sx sy (u + 1) (v + 1) hsx2 hsy2
            rw [hcontra, h2] at h1
            omega
          · show ((X0 + (u + 1) * sx) - (X0 + u * sx)).natAbs ≤ 1
            rw [show (X0 + (u + 1) * sx) - (X0 + u * sx) = sx by ring]
            rcases hsx with h | h <;> rw [h] <;> decide
          · show ((Y0 + (v + 1) * sy) - (Y0 + v * sy)).natAbs ≤ 1
            rw [show (Y0 + (v + 1) * sy) - (Y0 + v * sy) = sy by ring]
            rcases hsy with h | h <;> rw [h] <;> decide
      · -- horizontal step only
        have hua' : u < a := by
          rcases lt_or_eq_of_le hua with h | h
          · exact h
          · exact absurd hA (hstopx h (lt_of_le_of_ne hvb (fun hvb2 => hne ⟨h, hvb2⟩)))
        obtain ⟨l', hbl', hhead', hlast', hlow', hpair', hchain'⟩ :=
          ih (u + 1) v (by omega) (by omega) (by omega) (by omega) (by omega)
        refine ⟨(X0 + u * sx, Y0 + v * sy) :: l', ?_, rfl, ?_, ?_, ?_, ?_⟩
        · rw [bresLoop_step X1 Y1 a b sx sy _ _ _ n hterm]
          simp only [if_pos hA, if_neg hB]
          rw [show X0 + u * sx + sx = X0 + (u + 1) * sx by ring,
            show a * (v + 1) - b * (u + 1) - b + 0
                = a * (v + 1) - b * ((u + 1) + 1) by ring,
            hbl']
          rfl
        · obtain ⟨q, t, rfl⟩ : ∃ q t, l' = q :: t := by
            cases l' with
            | nil => simp at hhead'
            | cons q t => exact ⟨q, t, rfl⟩
          simpa using hlast'
        · intro p hp
          rcases List.mem_cons.mp hp with h | h
          · subst h
            rw [meas_at X0 Y0 sx sy u v hsx2 hsy2]
          · have := hlow' p h
            linarith
        · refine List.pairwise_cons.mpr ⟨?_, hpair'⟩
          intro p hp
          have h1 := hlow' p hp
          rw [meas_at X0 Y0 sx sy u v hsx2 hsy2]
          linarith
        · refine List.chain'_cons'.mpr ⟨?_, hchain'⟩
          intro q hq
          rw [hhead', Option.mem_some_iff] at hq
          subst hq
          refine ⟨?_, ?_, ?_⟩
          · intro hcontra
            have h1 := meas_at X0 Y0 sx sy u v hsx2 hsy2
            have h2 := meas_at X0 Y0 sx sy (u + 1) v hsx2 hsy2
            rw [hcontra, h2] at h1
            omega
          · show ((X0 + (u + 1) * sx) - (X0 + u * sx)).natAbs ≤ 1
            rw [show (X0 + (u + 1) * sx) - (X0 + u * sx) = sx by ring]
            rcases hsx with h | h <;> rw [h] <;> decide
          · show ((Y0 + v * sy) - (Y0 + v * sy)).natAbs ≤ 1
            rw [show (Y0 + v * sy) - (Y0 + v * sy) = 0 by ring]
            decide
      · -- vertical step only
        have hvb' : v < b := by
          rcases lt_or_eq_of_le hvb with h | h
          · exact h
          · refine absurd hB (hstopy h ?_)
            exact lt_of_le_of_ne hua (fun hua2 => hne ⟨hua2, h⟩)
        obtain ⟨l', hbl', hhead', hlast', hlow', hpair', hchain'⟩ :=
          ih u (v + 1) (by omega) (by omega) (by omega) (by omega) (by omega)
        refine ⟨(X0 + u * sx, Y0 + v * sy) :: l', ?_, rfl, ?_, ?_, ?_, ?_⟩
        · rw [bresLoop_step X1 Y1 a b sx sy _ _ _ n hterm]
          simp only [if_neg hA, if_pos hB]
          rw [show Y0 + v * sy + sy = Y0 + (v + 1) * sy by ring,
            show a * (v + 1) - b * (u + 1) + a
                = a * ((v + 1) + 1) - b * (u + 1) by ring,
            hbl']
          rfl
        · obtain ⟨q, t, rfl⟩ : ∃ q t, l' = q :: t := by
            cases l' with
            | nil => simp at hhead'
            | cons q t => exact ⟨q, t, rfl⟩
          simpa using hlast'
        · intro p hp
          rcases List.mem_cons.mp hp with h | h
          · subst h
            rw [meas_at X0 Y0 sx sy u v hsx2 hsy2]
          · have := hlow' p h
            linarith
        · refine List.pairwise_cons.mpr ⟨?_, hpair'⟩
          intro p hp
          have h1 := hlow' p hp
          rw [meas_at X0 Y0 sx sy u v hsx2 hsy2]
          linarith
        · refine List.chain'_cons'.mpr ⟨?_, hchain'⟩
          intro q hq
          rw [hhead', Option.mem_some_iff] at hq
          subst hq
          refine ⟨?_, ?_, ?_⟩
          · intro hcontra
            have h1 := meas_at X0 Y0 sx sy u v hsx2 hsy2
            have h2 := meas_at X0 Y0 sx sy u (v + 1) hsx2 hsy2
            rw [hcontra, h2] at h1
            omega
          · show ((X0 + u * sx) - (X0 + u * sx)).natAbs ≤ 1
            rw [show (X0 + u * sx) - (X0 + u * sx) = 0 by ring]
            decide
          · show ((Y0 + (v + 1) * sy) - (Y0 + v * sy)).natAbs ≤ 1
            rw [show (Y0 + (v + 1) * sy) - (Y0 + v * sy) = sy by ring]
            rcases hsy with h | h <;> rw [h] <;> decide
      · exact (hprog hA hB).elim

/-- The traversal always terminates within its fuel and yields a duplicate-free
8-connected pixel sequence from the first endpoint to the second. -/
lemma visitList_spec (x0 y0 x1 y1 : ℤ) :
    lineVisits x0 y0 x1 y1 = some (visitList x0 y0 x1 y1) ∧
    (visitList x0 y0 x1 y1).head? = some (x0, y0) ∧
    (visitList x0 y0 x1 y1).getLast? = some (x1, y1) ∧
    (visitList x0 y0 x1 y1).Nodup ∧
    (visitList x0 y0 x1 y1).Chain' adj8 := by
  obtain ⟨ha, hb, hsx, hsy, hx1, hy1⟩ := bresSetup_spec x0 y0 x1 y1
  obtain ⟨l, hl, hhead, hlast, hlow, hpair, hchain⟩ :=
    bresLoop_spec x0 y0 x1 y1 (bresSetup x0 y0 x1 y1).1 (bresSetup x0 y0 x1 y1).2.1
      (bresSetup x0 y0 x1 y1).2.2.1 (bresSetup x0 y0 x1 y1).2.2.2 ha hb hsx hsy hx1 hy1
      ((bresSetup x0 y0 x1 y1).1 + (bresSetup x0 y0 x1 y1).2.1 + 1).toNat 0 0
      le_rfl ha le_rfl hb (by omega)
  simp only [zero_mul, add_zero, zero_add, mul_one] at hl hhead
  have hv : lineVisits x0 y0 x1 y1 = some l := hl
  have hvl : visitList x0 y0 x1 y1 = l := by
    unfold visitList
    rw [hv]
    rfl
  refine ⟨by rw [hv, hvl], ?_, ?_, ?_, ?_⟩
  · rw [hvl]
    exact hhead
  · rw [hvl]
    exact hlast
  · rw [hvl]
    exact hpair.imp (fun {p q} h => fun he => by rw [he] at h; exact lt_irrefl _ h)
  · rw [hvl]
    exact hchain

/-- A degenerate line (coincident endpoints) visits exactly one pixel. -/
lemma visitList_single (x0 y0 : ℤ) : visitList x0 y0 x0 y0 = [(x0, y0)] := by
  obtain ⟨-, hhead, hlast, hnd, -⟩ := visitList_spec x0 y0 x0 y0
  cases hL : visitList x0 y0 x0 y0 with
  | nil => rw [hL] at hhead; simp at hhead
  | cons q t =>
    rw [hL] at hhead hlast hnd
    obtain rfl : q = (x0, y0) := by simpa using hhead
    cases t with
    | nil => rfl
    | cons r s =>
      rw [List.getLast?_cons_cons] at hlast
      have hmem0 : (x0, y0) ∈ (r :: s).getLast? := by rw [hlast]; rfl
      obtain ⟨hne, hgl⟩ := List.mem_getLast?_eq_getLast hmem0
      have hmem : (x0, y0) ∈ r :: s := hgl ▸ List.getLast_mem hne
      exact absurd hmem ((List.nodup_cons.mp hnd).1)

/-- `lineLoop` performs exactly one write of `clr` at each pixel the shared
traversal visits. -/
lemma lineLoop_eq_of_bresLoop (clr : RGBA) (x1 y1 dx dy sx sy : ℤ) :
    ∀ (fuel : ℕ) (img : Canvas) (x0 y0 err : ℤ) (l : List (ℤ × ℤ)),
      bresLoop x1 y1 dx dy sx sy fuel x0 y0 err = some l →
      lineLoop clr x1 y1 dx dy sx sy fuel img x0 y0 err
        = some (fun p => if p ∈ l then clr else img p) := by
  intro fuel
  induction fuel with
  | zero => intro img x0 y0 err l h; simp [bresLoop] at h
  | succ n ih =>
    intro img x0 y0 err l h
    by_cases hterm : x0 = x1 ∧ y0 = y1
    · simp only [bresLoop, if_pos hterm] at h
      obtain rfl : [(x0, y0)] = l := Option.some.inj h
      simp only [lineLoop, if_pos hterm]
      congr 1
      funext p
      by_cases hp : p = (x0, y0) <;> simp [setPixel, hp]
    · simp only [bresLoop, if_neg hterm] at h
      obtain ⟨l', hbres, hl⟩ := Option.map_eq_some'.mp h
      subst hl
      simp only [lineLoop, if_neg hterm]
      rw [ih (setPixel img x0 y0 clr) _ _ _ l' hbres]
      congr 1
      funext p
      by_cases h1 : p ∈ l' <;> by_cases h2 : p = (x0, y0) <;>
        simp [setPixel, h1, h2]

/-- `bcopyLoop` copies from `src` into `dst` exactly the pixels the shared
traversal visits. -/
lemma bcopyLoop_eq_of_bresLoop (src : Canvas) (x1 y1 dx dy sx sy : ℤ) :
    ∀ (fuel : ℕ) (dst : Canvas) (x0 y0 err : ℤ) (l : List (ℤ × ℤ)),
      bresLoop x1 y1 dx dy sx sy fuel x0 y0 err = some l →
      bcopyLoop src x1 y1 dx dy sx sy fuel dst x0 y0 err
        = some (fun p => if p ∈ l then src p else dst p) := by
  intro fuel
  induction fuel with
  | zero => intro dst x0 y0 err l h; simp [bresLoop] at h
  | succ n ih =>
    intro dst x0 y0 err l h
    by_cases hterm : x0 = x1 ∧ y0 = y1
    · simp only [bresLoop, if_pos hterm] at h
      obtain rfl : [(x0, y0)] = l := Option.some.inj h
      simp only [bcopyLoop, if_pos hterm]
      congr 1
      funext p
      by_cases hp : p = (x0, y0) <;> simp [setPixel, hp]
    · simp only [bresLoop, if_neg hterm] at h
      obtain ⟨l', hbres, hl⟩ := Option.map_eq_some'.mp h
      subst hl
      simp only [bcopyLoop, if_neg hterm]
      rw [ih (setPixel dst x0 y0 (src (x0, y0))) _ _ _ l' hbres]
      congr 1
      funext p
      by_cases h1 : p ∈ l' <;> by_cases h2 : p = (x0, y0) <;>
        simp [setPixel, h1, h2]

/-- `bdiffLoop` accumulates exactly the per-pixel distances of the pixels the
shared traversal visits. -/
lemma bdiffLoop_eq_of_bresLoop (ca cb : Canvas) (x1 y1 dx dy sx sy : ℤ) :
    ∀ (fuel : ℕ) (dif x0 y0 err : ℤ) (l : List (ℤ × ℤ)),
      bresLoop x1 y1 dx dy sx sy fuel x0 y0 err = some l →
      bdiffLoop ca cb x1 y1 dx dy sx sy fuel dif x0 y0 err
        = some (dif + (l.map (fun p => calcDiff ca cb p.1 p.2)).sum) := by
  intro fuel
  induction fuel with
  | zero => intro dif x0 y0 err l h; simp [bresLoop] at h
  | succ n ih =>
    intro dif x0 y0 err l h
    by_cases hterm : x0 = x1 ∧ y0 = y1
    · simp only [bresLoop, if_pos hterm] at h
      obtain rfl : [(x0, y0)] = l := Option.some.inj h
      simp only [bdiffLoop, if_pos hterm]
      simp
    · simp only [bresLoop, if_neg hterm] at h
      obtain ⟨l', hbres, hl⟩ := Option.map_eq_some'.mp h
      subst hl
      simp only [bdiffLoop, if_neg hterm]
      rw [ih (dif + calcDiff ca cb x0 y0) _ _ _ l' hbres]
      congr 1
      simp only [List.map_cons, List.sum_cons]
      ring

/-- `line` writes `clr` at exactly the visited pixels and nothing else. -/
lemma line_eq (img : Canvas) (x0 y0 x1 y1 : ℤ) (clr : RGBA) :
    line img x0 y0 x1 y1 clr
      = fun p => if p ∈ visitList x0 y0 x1 y1 then clr else img p := by
  have hv := (visitList_spec x0 y0 x1 y1).1
  unfold lineVisits at hv
  unfold line lineO
  rw [lineLoop_eq_of_bresLoop clr x1 y1 _ _ _ _ _ img _ _ _ _ hv]
  rfl

/-- `bcopy` copies from `src` into `dst` exactly the visited pixels. -/
lemma bcopy_eq (dst src : Canvas) (x0 y0 x1 y1 : ℤ) :
    bcopy dst src x0 y0 x1 y1
      = fun p => if p ∈ visitList x0 y0 x1 y1 then src p else dst p := by
  have hv := (visitList_spec x0 y0 x1 y1).1
  unfold lineVisits at hv
  unfold bcopy bcopyO
  rw [bcopyLoop_eq_of_bresLoop src x1 y1 _ _ _ _ _ dst _ _ _ _ hv]
  rfl

/-- `bdiff` is the sum of the per-pixel distances over the visited pixels. -/
lemma bdiff_eq (ca cb : Canvas) (x0 y0 x1 y1 : ℤ) :
    bdiff ca cb x0 y0 x1 y1
      = ((visitList x0 y0 x1 y1).map (fun p => calcDiff ca cb p.1 p.2)).sum := by
  have hv := (visitList_spec x0 y0 x1 y1).1
  unfold lineVisits at hv
  unfold bdiff bdiffO
  rw [bdiffLoop_eq_of_bresLoop ca cb x1 y1 _ _ _ _ _ 0 _ _ _ _ hv]
  simp

/-- `bdiff` only reads the candidate canvas at the visited pixels. -/
lemma bdiff_congr_right (ca cb cb' : Canvas) (x0 y0 x1 y1 : ℤ)
    (h : ∀ p ∈ visitList x0 y0 x1 y1, cb p = cb' p) :
    bdiff ca cb x0 y0 x1 y1 = bdiff ca cb' x0 y0 x1 y1 := by
  rw [bdiff_eq, bdiff_eq]
  apply congrArg
  apply List.map_congr_left
  intro p hp
  have hpv : cb (p.1, p.2) = cb' (p.1, p.2) := by
    rw [Prod.mk.eta]
    exact h p hp
  simp only [calcDiff, hpv]

/-- Without dedup, the palette scan appends every pixel's color. -/
lemma paletteScan_all (pix : List RGBA) :
    ∀ (pal uniq : List RGBA), paletteScan false pix pal uniq = pal ++ pix := by
  induction pix with
  | nil => intro pal uniq; simp [paletteScan]
  | cons c rest ih =>
    intro pal uniq
    simp [paletteScan, ih]

/-- With dedup, the palette scan keeps the palette duplicate-free, and only
ever inserts colors of the scanned pixels. -/
lemma paletteScan_uniq (pix : List RGBA) :
    ∀ (pal uniq : List RGBA), pal.Nodup → (∀ c, c ∈ pal ↔ c ∈ uniq) →
      (paletteScan true pix pal uniq).Nodup ∧
      (∀ c ∈ paletteScan true pix pal uniq, c ∈ pal ∨ c ∈ pix) := by
  induction pix with
  | nil =>
    intro pal uniq hnd _
    refine ⟨by simpa [paletteScan] using hnd, ?_⟩
    intro c hc
    left
    simpa [paletteScan] using hc
  | cons clr rest ih =>
    intro pal uniq hnd hiff
    by_cases hm : clr ∈ uniq
    · have hrec := ih pal uniq hnd hiff
      refine ⟨by simpa [paletteScan, hm] using hrec.1, ?_⟩
      intro c hc
      have hc' : c ∈ paletteScan true rest pal uniq := by
        simpa [paletteScan, hm] using hc
      rcases hrec.2 c hc' with h | h
      · exact Or.inl h
      · exact Or.inr (List.mem_cons_of_mem _ h)
    · have hnotpal : clr ∉ pal := fun h => hm ((hiff clr).mp h)
      have hnd' : (pal ++ [clr]).Nodup := by
        rw [List.nodup_append]
        refine ⟨hnd, List.nodup_singleton _, ?_⟩
        intro c hc hc'
        rw [List.mem_singleton] at hc'
        subst hc'
        exact hnotpal hc
      have hiff' : ∀ c, c ∈ pal ++ [clr] ↔ c ∈ clr :: uniq := by
        intro c
        rw [List.mem_append, List.mem_singleton, List.mem_cons, hiff c]
        exact or_comm
      have hrec := ih (pal ++ [clr]) (clr :: uniq) hnd' hiff'
      refine ⟨by simpa [paletteScan, hm] using hrec.1, ?_⟩
      intro c hc
      have hc' : c ∈ paletteScan true rest (pal ++ [clr]) (clr :: uniq) := by
        simpa [paletteScan, hm] using hc
      rcases hrec.2 c hc' with h | h
      · rcases List.mem_append.mp h with h2 | h2
        · exact Or.inl h2
        · rw [List.mem_singleton] at h2
          subst h2
          exact Or.inr (List.mem_cons_self _ _)
      · exact Or.inr (List.mem_cons_of_mem _ h)

lemma rasterList_length (w h : ℕ) (img : Canvas) :
    (rasterList w h img).length = w * h := by
  induction h with
  | zero => simp [rasterList]
  | succ n ih =>
    unfold rasterList at ih ⊢
    rw [List.range_succ, List.flatMap_append, List.length_append, ih]
    simp [Nat.mul_succ]

/-! Claim theorems. -/

/-- Claim C1: in every iteration, after the proposed line is drawn onto canvas
A (`img1`), if the line-restricted diff of A against the source is strictly
smaller than that of B (`img2`), the line's pixels are copied from A into B
and the convergence counter is incremented; otherwise — including ties — the
line's pixels are copied from B back into A and B is left unmodified. -/
theorem sketch_decision_rule (img img1 img2 : Canvas) (statc : ℕ)
    (x1 y1 x2 y2 : ℤ) (clr : RGBA) :
    (bdiff img (line img1 x1 y1 x2 y2 clr) x1 y1 x2 y2 < bdiff img img2 x1 y1 x2 y2 →
      iterStep img img1 img2 statc x1 y1 x2 y2 clr
        = (line img1 x1 y1 x2 y2 clr,
           fun p => if p ∈ visitList x1 y1 x2 y2 then line img1 x1 y1 x2 y2 clr p else img2 p,
           statc + 1)) ∧
    (bdiff img img2 x1 y1 x2 y2 ≤ bdiff img (line img1 x1 y1 x2 y2 clr) x1 y1 x2 y2 →
      iterStep img img1 img2 statc x1 y1 x2 y2 clr
        = ((fun p => if p ∈ visitList x1 y1 x2 y2 then img2 p else line img1 x1 y1 x2 y2 clr p),
           img2, statc)) := by
  constructor
  · intro h
    unfold iterStep
    rw [if_pos h, bcopy_eq]
  · intro h
    unfold iterStep
    rw [if_neg (not_lt.mpr h), bcopy_eq]

/-- Witness for C1: an all-white source, both canvases all-black, and a white
degenerate line at the origin strictly improve, so the convergence counter is
incremented. -/
theorem sketch_decision_rule_witness :
    (iterStep (fun _ => ⟨255, 255, 255, 255⟩) (fun _ => ⟨0, 0, 0, 255⟩)
        (fun _ => ⟨0, 0, 0, 255⟩) 0 0 0 0 0 ⟨255, 255, 255, 255⟩).2.2 = 1 := by
  rw [(sketch_decision_rule (fun _ => ⟨255, 255, 255, 255⟩) (fun _ => ⟨0, 0, 0, 255⟩)
        (fun _ => ⟨0, 0, 0, 255⟩) 0 0 0 0 0 ⟨255, 255, 255, 255⟩).1 (by decide)]

/-- Claim C2: for every iteration and initial state, the score of canvas B
against the source restricted to the iteration's line pixels never increases
across the iteration's copy step. -/
theorem sketch_B_not_locally_worse (img img1 img2 : Canvas) (statc : ℕ)
    (x1 y1 x2 y2 : ℤ) (clr : RGBA) :
    bdiff img (iterStep img img1 img2 statc x1 y1 x2 y2 clr).2.1 x1 y1 x2 y2
      ≤ bdiff img img2 x1 y1 x2 y2 := by
  unfold iterStep
  split_ifs with h
  · show bdiff img (bcopy img2 (line img1 x1 y1 x2 y2 clr) x1 y1 x2 y2) x1 y1 x2 y2
      ≤ bdiff img img2 x1 y1 x2 y2
    have hc : bdiff img (bcopy img2 (line img1 x1 y1 x2 y2 clr) x1 y1 x2 y2) x1 y1 x2 y2
        = bdiff img (line img1 x1 y1 x2 y2 clr) x1 y1 x2 y2 := by
      apply bdiff_congr_right
      intro p hp
      rw [bcopy_eq]
      simp [hp]
    rw [hc]
    exact le_of_lt h
  · exact le_rfl

/-- Claim C3 is a code bug: the synchronous part of save does freeze a copy in
`saveScratch`, but the asynchronous encode reads the live canvas `img`
(src/main.go:206 passes `img`, not `saveScratch`, to `png.Encode`), so a
main-loop write racing with the encode makes the written output differ from
the frozen snapshot. -/
theorem save_encode_reads_live_canvas :
    ∃ (s0 : SaveState) (x y : ℤ) (c : RGBA),
      encodeOutput (mainWrite (saveCall s0) x y c) ≠ (saveCall s0).scratch := by
  refine ⟨⟨fun _ => ⟨0, 0, 0, 255⟩, fun _ => ⟨0, 0, 0, 255⟩⟩, 0, 0,
    ⟨255, 255, 255, 255⟩, ?_⟩
  intro hcontra
  have h := congrFun hcontra (0, 0)
  simp [encodeOutput, mainWrite, saveCall, setPixel] at h

/-- Claim C4 counterexample: on an `os.Create` failure the save goroutine does
not let the run continue — `log.Fatalln` terminates the process. -/
theorem save_create_error_not_continue :
    (saveGoroutine (Except.error (0 : ℕ)) (0 : ℕ)).2 ≠ RunOutcome.loopContinues := by
  decide

/-- Claim C4 amended: an I/O error during a snapshot save is surfaced via the
logging collaborator but terminates the entire process (`log.Fatalln` calls
`os.Exit(1)`), so the main convergence loop does not continue. -/
theorem save_create_error_logged_and_fatal {ε ν : Type} (e : ε) (n : ν) :
    saveGoroutine (Except.error e) n
      = ([LogEntry.fatalErr e], RunOutcome.processExit) := rfl

/-- Claim C5: for all integer endpoints the traversal terminates within its
fuel, visits a duplicate-free pixel sequence in a deterministic order (it is a
pure function of the endpoints) starting at the first endpoint and ending at
the second, and visits exactly one pixel when the endpoints coincide. -/
theorem line_visits_each_pixel_once (x0 y0 x1 y1 : ℤ) :
    ∃ l, lineVisits x0 y0 x1 y1 = some l ∧ l ≠ [] ∧ l.Nodup ∧
      l.head? = some (x0, y0) ∧ l.getLast? = some (x1, y1) ∧
      (x0 = x1 → y0 = y1 → l = [(x0, y0)]) := by
  obtain ⟨hv, hhead, hlast, hnd, -⟩ := visitList_spec x0 y0 x1 y1
  refine ⟨visitList x0 y0 x1 y1, hv, ?_, hnd, hhead, hlast, ?_⟩
  · intro h
    rw [h] at hhead
    simp at hhead
  · intro hx hy
    subst hx
    subst hy
    exact visitList_single x0 y0

/-- Witness for C5 at the degenerate endpoint pair `(2, 3)`. -/
theorem line_visits_each_pixel_once_witness :
    ∃ l, lineVisits 2 3 2 3 = some l ∧ l ≠ [] ∧ l.Nodup ∧
      l.head? = some (2, 3) ∧ l.getLast? = some (2, 3) ∧ l = [(2, 3)] := by
  obtain ⟨l, h1, h2, h3, h4, h5, h6⟩ := line_visits_each_pixel_once 2 3 2 3
  exact ⟨l, h1, h2, h3, h4, h5, h6 rfl rfl⟩

/-- Claim C6 counterexample: the pixel set is not invariant under swapping the
endpoints — tracing `(0,0)` to `(2,1)` visits `(1,0)`, while tracing `(2,1)`
to `(0,0)` does not. -/
theorem line_swap_changes_pixel_set :
    ((1 : ℤ), (0 : ℤ)) ∈ visitList 0 0 2 1 ∧
    ((1 : ℤ), (0 : ℤ)) ∉ visitList 2 1 0 0 := by
  decide

/-- Claim C6 amended: for every pair of endpoints the visited pixels form a
non-empty 8-connected path from the first endpoint to the second (one pixel
when they coincide), but the visited set may change when the endpoints are
swapped. -/
theorem line_path_eight_connected (x0 y0 x1 y1 : ℤ) :
    visitList x0 y0 x1 y1 ≠ [] ∧
    (visitList x0 y0 x1 y1).Chain' adj8 ∧
    (visitList x0 y0 x1 y1).head? = some (x0, y0) ∧
    (visitList x0 y0 x1 y1).getLast? = some (x1, y1) ∧
    (x0 = x1 → y0 = y1 → visitList x0 y0 x1 y1 = [(x0, y0)]) := by
  obtain ⟨-, hhead, hlast, -, hchain⟩ := visitList_spec x0 y0 x1 y1
  refine ⟨?_, hchain, hhead, hlast, ?_⟩
  · intro h
    rw [h] at hhead
    simp at hhead
  · intro hx hy
    subst hx
    subst hy
    exact visitList_single x0 y0

/-- Witness for the amended C6 at the degenerate endpoint pair `(4, 5)`. -/
theorem line_path_eight_connected_witness :
    visitList 4 5 4 5 ≠ [] ∧
    (visitList 4 5 4 5).Chain' adj8 ∧
    (visitList 4 5 4 5).head? = some (4, 5) ∧
    (visitList 4 5 4 5).getLast? = some (4, 5) ∧
    visitList 4 5 4 5 = [(4, 5)] := by
  obtain ⟨h1, h2, h3, h4, h5⟩ := line_path_eight_connected 4 5 4 5
  exact ⟨h1, h2, h3, h4, h5 rfl rfl⟩

/-- Claim C7: the per-pixel distance is the sum over the four channels R, G,
B, A of the squared difference of the channel values (channels promoted before
subtraction, embedded exactly as integers), and the line scorer sums this
distance over exactly the visited pixels of the line. -/
theorem scorer_squared_channel_distance (ca cb : Canvas) (x0 y0 x1 y1 : ℤ) :
    (∀ x y, calcDiff ca cb x y
        = (((cb (x, y)).r : ℤ) - ((ca (x, y)).r : ℤ)) ^ 2
          + (((cb (x, y)).g : ℤ) - ((ca (x, y)).g : ℤ)) ^ 2
          + (((cb (x, y)).b : ℤ) - ((ca (x, y)).b : ℤ)) ^ 2
          + (((cb (x, y)).a : ℤ) - ((ca (x, y)).a : ℤ)) ^ 2) ∧
    bdiff ca cb x0 y0 x1 y1
      = ((visitList x0 y0 x1 y1).map (fun p => calcDiff ca cb p.1 p.2)).sum := by
  refine ⟨?_, bdiff_eq ca cb x0 y0 x1 y1⟩
  intro x y
  simp only [calcDiff]
  ring

/-- Claim C8: the palette builder scans the image in raster order once; in
dedup mode the palette is duplicate-free so its length is at most the number
of distinct source colors, and without dedup it is exactly the raster pixel
sequence, so its length is the pixel count `w * h`. -/
theorem palette_builder_lengths (w h : ℕ) (img : Canvas) :
    buildPalette false w h img = rasterList w h img ∧
    (buildPalette false w h img).length = w * h ∧
    (buildPalette true w h img).Nodup ∧
    (buildPalette true w h img).length ≤ (rasterList w h img).dedup.length := by
  have hall : buildPalette false w h img = rasterList w h img := by
    unfold buildPalette
    rw [paletteScan_all]
    rfl
  have huniq : (buildPalette true w h img).Nodup ∧
      ∀ c ∈ buildPalette true w h img, c ∈ ([] : List RGBA) ∨ c ∈ rasterList w h img :=
    paletteScan_uniq (rasterList w h img) [] [] List.nodup_nil (by simp)
  refine ⟨hall, by rw [hall, rasterList_length], huniq.1, ?_⟩
  have hsub : (buildPalette true w h img).toFinset ⊆ (rasterList w h img).toFinset := by
    intro c hc
    rw [List.mem_toFinset] at hc ⊢
    rcases huniq.2 c hc with h2 | h2
    · simp at h2
    · exact h2
  calc (buildPalette true w h img).length
      = (buildPalette true w h img).toFinset.card :=
        (List.toFinset_card_of_nodup huniq.1).symm
    _ ≤ (rasterList w h img).toFinset.card := Finset.card_le_card hsub
    _ = (rasterList w h img).dedup.length := List.card_toFinset _

/-- Claim C9: with a large enough line-length limit relative to the image, the
endpoint sampling of the sketch loop can place the second endpoint outside the
image bounds, and the unclamped traversal (used as-is by the rasterize, diff
and copy routines) then visits an out-of-bounds pixel coordinate.  Shown here
for a 1-by-1 image with line length limit 4, anchor `(0, 0)` and both random
draws equal to 3. -/
theorem sampling_escapes_bounds :
    ∃ (w h len : ℕ) (x1 y1 r1 r2 : ℤ),
      0 < w ∧ 0 < h ∧ 0 < len ∧
      0 ≤ x1 ∧ x1 < (w : ℤ) ∧ 0 ≤ y1 ∧ y1 < (h : ℤ) ∧
      0 ≤ r1 ∧ r1 < (len : ℤ) ∧ 0 ≤ r2 ∧ r2 < (len : ℤ) ∧
      ¬ inBounds w h (samplePoint2 len x1 r1, samplePoint2 len y1 r2) ∧
      ∃ p ∈ visitList x1 y1 (samplePoint2 len x1 r1) (samplePoint2 len y1 r2),
        ¬ inBounds w h p := by
  refine ⟨1, 1, 4, 0, 0, 3, 3, ?_⟩
  decide

/-- Claim C10: if canvases A and B are equal at the start of an iteration (as
they are initially, both opaque black), they are equal again after the
iteration: the losing canvas has exactly the line's pixels overwritten with
the winner's values. -/
theorem sketch_canvases_equal_after_step (img img1 img2 : Canvas) (statc : ℕ)
    (x1 y1 x2 y2 : ℤ) (clr : RGBA) (h : img1 = img2) :
    (iterStep img img1 img2 statc x1 y1 x2 y2 clr).1
      = (iterStep img img1 img2 statc x1 y1 x2 y2 clr).2.1 := by
  subst h
  unfold iterStep
  split_ifs with hlt
  · show line img1 x1 y1 x2 y2 clr
      = bcopy img1 (line img1 x1 y1 x2 y2 clr) x1 y1 x2 y2
    rw [bcopy_eq, line_eq]
    funext p
    by_cases hp : p ∈ visitList x1 y1 x2 y2 <;> simp [hp]
  · show bcopy (line img1 x1 y1 x2 y2 clr) img1 x1 y1 x2 y2 = img1
    rw [bcopy_eq, line_eq]
    funext p
    by_cases hp : p ∈ visitList x1 y1 x2 y2 <;> simp [hp]

/-- Witness for C10 at concrete equal all-black canvases and the line
`(0,0)-(2,1)`. -/
theorem sketch_canvases_equal_after_step_witness :
    (iterStep (fun _ => ⟨1, 2, 3, 4⟩) (fun _ => ⟨0, 0, 0, 255⟩)
        (fun _ => ⟨0, 0, 0, 255⟩) 5 0 0 2 1 ⟨7, 7, 7, 255⟩).1
      = (iterStep (fun _ => ⟨1, 2, 3, 4⟩) (fun _ => ⟨0, 0, 0, 255⟩)
        (fun _ => ⟨0, 0, 0, 255⟩) 5 0 0 2 1 ⟨7, 7, 7, 255⟩).2.1 :=
  sketch_canvases_equal_after_step _ _ _ _ _ _ _ _ _ rfl

end Sketch
